import Mathlib

/-!
Verification of the binary encoder of the GameAndWatch romification tool
(`support/src/encode_format.rs`, with the crate constants `WIDTH`/`HEIGHT`
from `support/src/main.rs`).

The Rust source is shallowly embedded: machine integers become `Nat` with
explicit `% 2 ^ w` where the source truncates, `Vec<u8>` becomes `List Nat`,
`Result<T, String>` becomes `Except String T`, and `bitvec` `Lsb0` bit
buffers become lists of 0/1 bits.  Functions keep their source names.
The source fixes the grid size with the crate constants `WIDTH = HEIGHT =
720`; the embedding takes `width` and `height` as explicit arguments so that
statements quantify over the geometry, and defines the constants separately.
-/

namespace GnW

/-- Grid width constant of `support/src/main.rs` (`const WIDTH: usize = 720`). -/
def WIDTH : Nat := 720

/-- Grid height constant of `support/src/main.rs` (`const HEIGHT: usize = WIDTH`). -/
def HEIGHT : Nat := WIDTH

/-! ### Bit-level model of the `bitvec` `Lsb0` buffers -/

/-- Value (0 or 1) of bit `i` of the natural number `v`: one bit of an `Lsb0`
view of an integer. -/
def natBit (v i : Nat) : Nat := v / 2 ^ i % 2

/-- Model of a zero-initialised `bitvec` buffer of `n` bits
(`bitvec![u8, Lsb0; 0; n]`): a list of `n` zero bits. -/
def zeroBits : Nat → List Nat
  | 0 => []
  | n + 1 => 0 :: zeroBits n

/-- Helper for `storeBits`: `i` is the index of the head of the remaining
buffer. -/
def storeBitsAux (lo hi value : Nat) : Nat → List Nat → List Nat
  | _, [] => []
  | i, b :: bs =>
    (if lo ≤ i ∧ i < hi then natBit value (i - lo) else b) :: storeBitsAux lo hi value (i + 1) bs

/-- Model of `data[lo..hi].store(value)` on an `Lsb0` bit-slice: positions
`lo ≤ i < hi` receive bit `i - lo` of `value` (the value is truncated to the
width of the slice, as `bitvec`'s `BitField::store` does); other positions
are unchanged. -/
def storeBits (lo hi value : Nat) (bits : List Nat) : List Nat :=
  storeBitsAux lo hi value 0 bits

/-- Collapse an `Lsb0` bit buffer into bytes, eight bits per byte, the first
bit of each group being the least significant: model of a `BitVec<u8, Lsb0>`
viewed as its underlying byte vector (`data.into()`). -/
def bitsToBytes : List Nat → List Nat
  | b0 :: b1 :: b2 :: b3 :: b4 :: b5 :: b6 :: b7 :: rest =>
    (b0 + 2 * b1 + 4 * b2 + 8 * b3 + 16 * b4 + 32 * b5 + 64 * b6 + 128 * b7) :: bitsToBytes rest
  | _ => []

/-- Little-endian byte expansion: the `k` low-order bytes of `v`. -/
def natLEBytes : Nat → Nat → List Nat
  | 0, _ => []
  | k + 1, v => v % 256 :: natLEBytes k (v / 256)

theorem natLEBytes_length (k v : Nat) : (natLEBytes k v).length = k := by
  induction k generalizing v with
  | zero => rfl
  | succ k ih => simp [natLEBytes, ih]

/-! ### RLE entry packing (`entry_to_bytes`, encode_format.rs:411–420) -/

/-- Embedding of `entry_to_bytes`: a 40-bit `Lsb0` buffer receives `id` at
bits 0..10, `start_x` at bits 10..20, `y` at bits 20..30 and `length` at bits
30..40, and is returned as 5 bytes.  Argument order follows the source
signature `entry_to_bytes(id, length, start_x, y)`. -/
def entry_to_bytes (id length start_x y : Nat) : List Nat :=
  bitsToBytes
    (storeBits 30 40 length
      (storeBits 20 30 y
        (storeBits 10 20 start_x
          (storeBits 0 10 id (zeroBits (5 * 8))))))

/-- The 40-bit value packing the four 10-bit fields of one RLE entry, each
field truncated to 10 bits. -/
def entryVal (id start_x y length : Nat) : Nat :=
  id % 1024 + start_x % 1024 * 2 ^ 10 + y % 1024 * 2 ^ 20 + length % 1024 * 2 ^ 30

theorem entry_to_bytes_eq (id length start_x y : Nat) :
    entry_to_bytes id length start_x y = natLEBytes 5 (entryVal id start_x y length) := by
  have hz : zeroBits (5 * 8) = [0, 0, 0, 0, 0, 0, 0, 0, 0, 0, 0, 0, 0, 0, 0, 0, 0, 0, 0, 0,
      0, 0, 0, 0, 0, 0, 0, 0, 0, 0, 0, 0, 0, 0, 0, 0, 0, 0, 0, 0] := rfl
  rw [entry_to_bytes, hz]
  simp only [storeBits, storeBitsAux, natLEBytes, entryVal, bitsToBytes, natBit]
  norm_num
  omega

theorem entry_to_bytes_length (id length start_x y : Nat) :
    (entry_to_bytes id length start_x y).length = 5 := by
  rw [entry_to_bytes_eq, natLEBytes_length]

/-! ### RLE entry decoding

The repository contains no decoder; the decoding direction below is modelled
from the spec: "decoding the RLE stream (scan, unpack 10-bit fields,
re-rasterize onto a width×height grid)". -/

/-- One RLE entry: a horizontal run of `length` same-`id` pixels starting at
column `start_x` of row `y`. -/
structure MaskEntry where
  id : Nat
  start_x : Nat
  y : Nat
  length : Nat
deriving DecidableEq

/-- Modelled from the spec: unpack the four 10-bit fields of one 5-byte RLE
entry, least-significant-bit-first, in the order id, start_x, y, length. -/
def decode_entry (b0 b1 b2 b3 b4 : Nat) : MaskEntry :=
  let v := b0 + b1 * 2 ^ 8 + b2 * 2 ^ 16 + b3 * 2 ^ 24 + b4 * 2 ^ 32
  ⟨v % 1024, v / 2 ^ 10 % 1024, v / 2 ^ 20 % 1024, v / 2 ^ 30 % 1024⟩

/-- Modelled from the spec: scan the whole RLE stream, 5 bytes per entry. -/
def scanEntries : List Nat → List MaskEntry
  | b0 :: b1 :: b2 :: b3 :: b4 :: rest => decode_entry b0 b1 b2 b3 b4 :: scanEntries rest
  | _ => []

/-- Decoding inverts packing, field by field, up to the 10-bit truncation
performed by `store`. -/
theorem decode_entry_entry_to_bytes (id length start_x y : Nat) :
    scanEntries (entry_to_bytes id length start_x y) =
      [⟨id % 1024, start_x % 1024, y % 1024, length % 1024⟩] := by
  rw [entry_to_bytes_eq]
  simp only [natLEBytes, scanEntries, decode_entry, entryVal, MaskEntry.mk.injEq]
  norm_num
  omega

/-! ### Header geometry field (`build_config`, encode_format.rs:161–167) -/

/-- Embedding of the geometry packing of `build_config`: a 3-byte (24-bit)
`Lsb0` buffer receives the (already rounded) `width` at bits 0..10 and
`height` at bits 10..20; the top 4 bits stay zero. -/
def geometry_bytes (width height : Nat) : List Nat :=
  bitsToBytes (storeBits 10 20 height (storeBits 0 10 width (zeroBits (3 * 8))))

/-- Modelled from the spec: unpack the 3-byte geometry field into
(width, height) by extracting bits 0..10 and 10..20 of its 24-bit
little-endian value. -/
def unpack_geometry (bytes : List Nat) : Nat × Nat :=
  let v := bytes.getD 0 0 + bytes.getD 1 0 * 2 ^ 8 + bytes.getD 2 0 * 2 ^ 16
  (v % 1024, v / 2 ^ 10 % 1024)

theorem geometry_bytes_eq (width height : Nat) :
    geometry_bytes width height = natLEBytes 3 (width % 1024 + height % 1024 * 2 ^ 10) := by
  have hz : zeroBits (3 * 8) = [0, 0, 0, 0, 0, 0, 0, 0, 0, 0, 0, 0, 0, 0, 0, 0, 0, 0, 0, 0,
      0, 0, 0, 0] := rfl
  rw [geometry_bytes, hz]
  simp only [storeBits, storeBitsAux, natLEBytes, bitsToBytes, natBit]
  norm_num
  omega

/-- C2 (amended): the 5-byte encoding packs the four 10-bit fields in the
order id, start_x, y, length, least-significant-bit-first from bit 0 of
byte 0: for all field values below 1024, byte `k` of the encoding equals
bits `8k..8k+7` of the 40-bit value
`id + start_x * 2^10 + y * 2^20 + length * 2^30`.  (The original claim's
"top 4 bits of the 40-bit block zero" clause is dropped: the four 10-bit
fields fill all 40 bits, see the counterexample.) -/
theorem entry_packing_bytes (id start_x y length k : Nat)
    (hid : id < 1024) (hsx : start_x < 1024) (hy : y < 1024) (hlen : length < 1024)
    (hk : k < 5) :
    (entry_to_bytes id length start_x y).getD k 0 =
      (id + start_x * 2 ^ 10 + y * 2 ^ 20 + length * 2 ^ 30) / 2 ^ (8 * k) % 256 := by
  rw [entry_to_bytes_eq]
  interval_cases k <;>
    · simp only [natLEBytes, entryVal, List.getD_cons_zero, List.getD_cons_succ]
      norm_num
      omega

/-- C2 witness: the byte formula evaluated at id=1, start_x=2, y=3,
length=4, byte 1. -/
theorem entry_packing_bytes_witness :
    (1 < 1024 ∧ 2 < 1024 ∧ 3 < 1024 ∧ 4 < 1024 ∧ 1 < 5) ∧
    (entry_to_bytes 1 4 2 3).getD 1 0 =
      (1 + 2 * 2 ^ 10 + 3 * 2 ^ 20 + 4 * 2 ^ 30) / 2 ^ (8 * 1) % 256 :=
  ⟨by decide,
    entry_packing_bytes 1 2 3 4 1 (by decide) (by decide) (by decide) (by decide) (by decide)⟩

/-- C2 counterexample: with fields id=0, start_x=0, y=0, length=512 (all
below 1024), the top 4 bits of the 40-bit block are not zero: byte 4 of the
encoding is 128, so bit 39 (bit 9 of `length`) is set.  The claim's "top 4
bits of the 40-bit block zero" clause is false: four 10-bit fields fill the
40-bit block exactly, leaving no pad bits. -/
theorem entry_packing_pad_bits_counterexample :
    512 < 1024 ∧ (entry_to_bytes 0 512 0 0).getD 4 0 / 2 ^ 4 ≠ 0 := by decide

/-- C4: for all width and height strictly below 1024, packing them into the
header's 3-byte geometry field (10-bit width, then 10-bit height, then 4 pad
bits, least-significant-bit-first) and unpacking that field reproduces the
exact width and height. -/
theorem geometry_roundtrip (width height : Nat) (hw : width < 1024) (hh : height < 1024) :
    unpack_geometry (geometry_bytes width height) = (width, height) := by
  rw [geometry_bytes_eq]
  simp only [natLEBytes, unpack_geometry, List.getD_cons_zero, List.getD_cons_succ,
    Prod.mk.injEq]
  norm_num
  omega

/-- C4 witness: the geometry round-trip at the spec's example sizes 80×64. -/
theorem geometry_roundtrip_witness :
    (80 < 1024 ∧ 64 < 1024) ∧ unpack_geometry (geometry_bytes 80 64) = (80, 64) :=
  ⟨by decide, geometry_roundtrip 80 64 (by decide) (by decide)⟩

/-! ### Mask RLE encoder (`build_mask_map`, encode_format.rs:323–409) -/

/-- Constant `BYTES_PER_ENTRY` of the source. -/
def BYTES_PER_ENTRY : Nat := 5

/-- Constant `AVERAGE_ENTRIES_PER_ROW` of the source. -/
def AVERAGE_ENTRIES_PER_ROW : Nat := 52

/-- Constant `TOTAL_BYTE_LENGTH = BYTES_PER_ENTRY * AVERAGE_ENTRIES_PER_ROW *
HEIGHT` of the source, with the height as an argument. -/
def TOTAL_BYTE_LENGTH (height : Nat) : Nat := BYTES_PER_ENTRY * AVERAGE_ENTRIES_PER_ROW * height

/-- Model of `output[i..i + s.len()].clone_from_slice(&s)`. -/
def writeSlice (output : List Nat) (i : Nat) (s : List Nat) : List Nat :=
  output.take i ++ s ++ output.drop (i + s.length)

/-- Embedding of `insert_mask_entry_bytes` (encode_format.rs:327–348): append
one 5-byte entry at `byte_index`, or fail if it would exceed the fixed
capacity.  Returns the updated buffer and byte index. -/
def insert_mask_entry_bytes (height : Nat) (output : List Nat) (byte_index : Nat)
    (id length start_x y : Nat) : Except String (List Nat × Nat) :=
  if byte_index + BYTES_PER_ENTRY > TOTAL_BYTE_LENGTH height then
    Except.error
      s!"More entries ({byte_index + BYTES_PER_ENTRY}) than allowed ({TOTAL_BYTE_LENGTH height})"
  else
    Except.ok
      (writeSlice output byte_index (entry_to_bytes id length start_x y),
        byte_index + BYTES_PER_ENTRY)

/-- Embedding of the inner (per-column) loop of `build_mask_map` for row `y`:
walk the row left to right, maintaining the current run
`current = some (id, start_x, length)` and the column `x`, flushing a run
whenever its id ends, and force-flushing the straggler at end of row. -/
def buildRowAux (height y : Nat) :
    List (Option Nat) → Nat → Option (Nat × Nat × Nat) → List Nat → Nat →
      Except String (List Nat × Nat)
  | [], _, none, output, bi => Except.ok (output, bi)
  | [], _, some (id, sx, len), output, bi => insert_mask_entry_bytes height output bi id len sx y
  | px :: rest, x, cur, output, bi =>
    match px, cur with
    | some id, some (sid, sx, len) =>
      if sid = id then buildRowAux height y rest (x + 1) (some (sid, sx, len + 1)) output bi
      else
        match insert_mask_entry_bytes height output bi sid len sx y with
        | Except.error msg => Except.error msg
        | Except.ok (output, bi) => buildRowAux height y rest (x + 1) (some (id, x, 1)) output bi
    | some id, none => buildRowAux height y rest (x + 1) (some (id, x, 1)) output bi
    | none, some (sid, sx, len) =>
      match insert_mask_entry_bytes height output bi sid len sx y with
      | Except.error msg => Except.error msg
      | Except.ok (output, bi) => buildRowAux height y rest (x + 1) none output bi
    | none, none => buildRowAux height y rest (x + 1) none output bi

/-- Row `y` of the row-major grid: the source reads
`pixels_to_mask_id[y * WIDTH + x]` for `x` in `0..WIDTH`. -/
def rowOf (width : Nat) (pixels : List (Option Nat)) (y : Nat) : List (Option Nat) :=
  (pixels.drop (y * width)).take width

/-- The outer (per-row) loop of `build_mask_map` over the listed rows. -/
def buildRowsAux (width height : Nat) (pixels : List (Option Nat)) :
    List Nat → List Nat × Nat → Except String (List Nat × Nat)
  | [], st => Except.ok st
  | y :: ys, (output, bi) =>
    match buildRowAux height y (rowOf width pixels y) 0 none output bi with
    | Except.error msg => Except.error msg
    | Except.ok st => buildRowsAux width height pixels ys st

/-- Embedding of `build_mask_map` (encode_format.rs:350–409): run-length
encode the row-major grid of optional mask ids into a zero-initialised
buffer of `TOTAL_BYTE_LENGTH height` bytes. -/
def build_mask_map (width height : Nat) (pixels : List (Option Nat)) :
    Except String (List Nat) :=
  match buildRowsAux width height pixels (List.range height)
      (List.replicate (TOTAL_BYTE_LENGTH height) 0, 0) with
  | Except.error msg => Except.error msg
  | Except.ok (output, _) => Except.ok output

/-! ### Characterisation of the encoder as run extraction plus insertion -/

/-- The runs the inner loop of `build_mask_map` flushes for row `y`, starting
at column `x` with open run `cur`: pure run extraction, without the byte
buffer. -/
def rowRunsAux (y : Nat) : List (Option Nat) → Nat → Option (Nat × Nat × Nat) → List MaskEntry
  | [], _, none => []
  | [], _, some (id, sx, len) => [⟨id, sx, y, len⟩]
  | px :: rest, x, cur =>
    match px, cur with
    | some id, some (sid, sx, len) =>
      if sid = id then rowRunsAux y rest (x + 1) (some (sid, sx, len + 1))
      else ⟨sid, sx, y, len⟩ :: rowRunsAux y rest (x + 1) (some (id, x, 1))
    | some id, none => rowRunsAux y rest (x + 1) (some (id, x, 1))
    | none, some (sid, sx, len) => ⟨sid, sx, y, len⟩ :: rowRunsAux y rest (x + 1) none
    | none, none => rowRunsAux y rest (x + 1) none

/-- The horizontal same-id runs of row `y` of the grid, in flush order. -/
def rowRuns (width : Nat) (pixels : List (Option Nat)) (y : Nat) : List MaskEntry :=
  rowRunsAux y (rowOf width pixels y) 0 none

/-- All horizontal same-id runs of the grid, row by row: the RLE entries
`build_mask_map` writes. -/
def gridEntries (width height : Nat) (pixels : List (Option Nat)) : List MaskEntry :=
  (List.range height).flatMap (rowRuns width pixels)

/-- The 5 bytes of one extracted run. -/
def entryBytesOf (e : MaskEntry) : List Nat :=
  entry_to_bytes e.id e.length e.start_x e.y

/-- Insert a list of entries in order with `insert_mask_entry_bytes`. -/
def insertEntries (height : Nat) : List MaskEntry → List Nat → Nat → Except String (List Nat × Nat)
  | [], output, bi => Except.ok (output, bi)
  | e :: es, output, bi =>
    match insert_mask_entry_bytes height output bi e.id e.length e.start_x e.y with
    | Except.error msg => Except.error msg
    | Except.ok (output, bi) => insertEntries height es output bi

theorem buildRowAux_eq_insertEntries (height y : Nat) (rest : List (Option Nat)) :
    ∀ x cur output bi,
      buildRowAux height y rest x cur output bi =
        insertEntries height (rowRunsAux y rest x cur) output bi := by
  induction rest with
  | nil =>
    intro x cur output bi
    match cur with
    | none => rfl
    | some (id, sx, len) =>
      simp only [buildRowAux, rowRunsAux, insertEntries]
      match insert_mask_entry_bytes height output bi id len sx y with
      | Except.error msg => rfl
      | Except.ok (output', bi') => rfl
  | cons px rest ih =>
    intro x cur output bi
    match px, cur with
    | some id, some (sid, sx, len) =>
      simp only [buildRowAux, rowRunsAux]
      by_cases h : sid = id
      · simp only [if_pos h, ih]
      · simp only [if_neg h, insertEntries]
        match insert_mask_entry_bytes height output bi sid len sx y with
        | Except.error msg => rfl
        | Except.ok (output', bi') => exact ih _ _ _ _
    | some id, none => simp only [buildRowAux, rowRunsAux, ih]
    | none, some (sid, sx, len) =>
      simp only [buildRowAux, rowRunsAux, insertEntries]
      match insert_mask_entry_bytes height output bi sid len sx y with
      | Except.error msg => rfl
      | Except.ok (output', bi') => exact ih _ _ _ _
    | none, none => simp only [buildRowAux, rowRunsAux, ih]

theorem insertEntries_append (height : Nat) (l1 l2 : List MaskEntry) :
    ∀ output bi,
      insertEntries height (l1 ++ l2) output bi =
        match insertEntries height l1 output bi with
        | Except.error msg => Except.error msg
        | Except.ok (output, bi) => insertEntries height l2 output bi := by
  induction l1 with
  | nil => intro output bi; rfl
  | cons e es ih =>
    intro output bi
    simp only [List.cons_append, insertEntries]
    match insert_mask_entry_bytes height output bi e.id e.length e.start_x e.y with
    | Except.error msg => rfl
    | Except.ok (output', bi') => exact ih _ _

theorem buildRowsAux_eq_insertEntries (width height : Nat) (pixels : List (Option Nat))
    (ys : List Nat) :
    ∀ output bi,
      buildRowsAux width height pixels ys (output, bi) =
        insertEntries height (ys.flatMap (rowRuns width pixels)) output bi := by
  induction ys with
  | nil => intro output bi; rfl
  | cons y ys ih =>
    intro output bi
    simp only [buildRowsAux, List.flatMap_cons, insertEntries_append, rowRuns,
      buildRowAux_eq_insertEntries]
    match insertEntries height (rowRunsAux y (rowOf width pixels y) 0 none) output bi with
    | Except.error msg => rfl
    | Except.ok (output', bi') => exact ih _ _

theorem writeSlice_length (output s : List Nat) (i : Nat) (h : i + s.length ≤ output.length) :
    (writeSlice output i s).length = output.length := by
  simp only [writeSlice, List.length_append, List.length_take, List.length_drop]
  omega

theorem take_writeSlice (output s : List Nat) (i : Nat) (hi : i ≤ output.length) :
    (writeSlice output i s).take (i + s.length) = output.take i ++ s := by
  have h1 : (output.take i ++ s).length = i + s.length := by simp; omega
  rw [writeSlice, List.take_left' h1]

theorem drop_writeSlice (output s : List Nat) (i k : Nat) (hi : i ≤ output.length) :
    (writeSlice output i s).drop (i + s.length + k) = output.drop (i + s.length + k) := by
  have h1 : (output.take i ++ s).length = i + s.length := by simp; omega
  rw [writeSlice, List.drop_append_eq_append_drop,
    List.drop_eq_nil_of_le (by rw [h1]; omega), h1, List.nil_append]
  have h2 : i + s.length + k - (i + s.length) = k := by omega
  rw [h2, List.drop_drop]

theorem insertEntries_ok (height : Nat) (es : List MaskEntry) :
    ∀ output bi, output.length = TOTAL_BYTE_LENGTH height →
      bi + 5 * es.length ≤ TOTAL_BYTE_LENGTH height →
      insertEntries height es output bi =
        Except.ok
          (output.take bi ++ es.flatMap entryBytesOf ++ output.drop (bi + 5 * es.length),
            bi + 5 * es.length) := by
  induction es with
  | nil =>
    intro output bi hlen hcap
    simp [insertEntries, List.take_append_drop]
  | cons e es ih =>
    intro output bi hlen hcap
    simp only [List.length_cons] at hcap
    have hc : ¬ (bi + 5 > TOTAL_BYTE_LENGTH height) := by omega
    simp only [insertEntries, insert_mask_entry_bytes, BYTES_PER_ENTRY, if_neg hc,
      List.length_cons, List.flatMap_cons, entryBytesOf]
    have hbts : (entry_to_bytes e.id e.length e.start_x e.y).length = 5 :=
      entry_to_bytes_length _ _ _ _
    have hlen' : (writeSlice output bi (entry_to_bytes e.id e.length e.start_x e.y)).length =
        TOTAL_BYTE_LENGTH height := by
      rw [writeSlice_length _ _ _ (by rw [hbts, hlen]; omega)]; exact hlen
    rw [ih _ (bi + 5) hlen' (by omega)]
    have hbi : bi ≤ output.length := by rw [hlen]; omega
    have htk : (writeSlice output bi (entry_to_bytes e.id e.length e.start_x e.y)).take (bi + 5) =
        output.take bi ++ entry_to_bytes e.id e.length e.start_x e.y := by
      rw [← hbts, take_writeSlice _ _ _ hbi]
    have hdr : (writeSlice output bi (entry_to_bytes e.id e.length e.start_x e.y)).drop
        (bi + 5 + 5 * es.length) = output.drop (bi + 5 + 5 * es.length) := by
      rw [show bi + 5 + 5 * es.length =
        bi + (entry_to_bytes e.id e.length e.start_x e.y).length + 5 * es.length by
          rw [hbts], drop_writeSlice _ _ _ _ hbi]
    rw [htk, hdr]
    have hXY : bi + 5 * (es.length + 1) = bi + 5 + 5 * es.length := by ring
    rw [hXY]
    simp [List.append_assoc]

theorem insertEntries_error (height : Nat) (es : List MaskEntry) :
    ∀ output bi, bi ≤ TOTAL_BYTE_LENGTH height →
      (TOTAL_BYTE_LENGTH height - bi) % 5 = 0 →
      TOTAL_BYTE_LENGTH height < bi + 5 * es.length →
      insertEntries height es output bi =
        Except.error
          s!"More entries ({TOTAL_BYTE_LENGTH height + 5}) than allowed ({TOTAL_BYTE_LENGTH height})" := by
  induction es with
  | nil => intro output bi hble hmod hover; simp only [List.length_nil] at hover; omega
  | cons e es ih =>
    intro output bi hble hmod hover
    by_cases hc : TOTAL_BYTE_LENGTH height < bi + BYTES_PER_ENTRY
    · have hbi : bi = TOTAL_BYTE_LENGTH height := by
        simp only [BYTES_PER_ENTRY] at hc; omega
      subst hbi
      simp [insertEntries, insert_mask_entry_bytes, hc, BYTES_PER_ENTRY]
    · simp only [insertEntries, insert_mask_entry_bytes, gt_iff_lt, if_neg hc]
      simp only [BYTES_PER_ENTRY] at hc ⊢
      simp only [List.length_cons] at hover
      exact ih _ _ (by omega) (by omega) (by omega)

/-- Success characterisation of `build_mask_map`: when the total number of
runs fits the capacity, the output buffer is the concatenated 5-byte entries
of all runs followed by the untouched zero tail. -/
theorem build_mask_map_ok (width height : Nat) (pixels : List (Option Nat))
    (h : (gridEntries width height pixels).length ≤ 52 * height) :
    build_mask_map width height pixels =
      Except.ok ((gridEntries width height pixels).flatMap entryBytesOf ++
        List.replicate (TOTAL_BYTE_LENGTH height - 5 * (gridEntries width height pixels).length) 0) := by
  have hT : TOTAL_BYTE_LENGTH height = 5 * (52 * height) := by
    simp [TOTAL_BYTE_LENGTH, BYTES_PER_ENTRY, AVERAGE_ENTRIES_PER_ROW]; ring
  simp only [gridEntries] at h ⊢
  rw [build_mask_map, buildRowsAux_eq_insertEntries,
    insertEntries_ok height _ _ 0 (by simp) (by omega)]
  simp only [List.take_zero, List.nil_append, Nat.zero_add, List.drop_replicate]

/-- Failure characterisation of `build_mask_map`: when the total number of
runs exceeds the capacity, the hard error is raised at the first overflowing
entry, naming the attempted byte length and the allowed capacity. -/
theorem build_mask_map_error (width height : Nat) (pixels : List (Option Nat))
    (h : 52 * height < (gridEntries width height pixels).length) :
    build_mask_map width height pixels =
      Except.error
        s!"More entries ({TOTAL_BYTE_LENGTH height + 5}) than allowed ({TOTAL_BYTE_LENGTH height})" := by
  have hT : TOTAL_BYTE_LENGTH height = 5 * (52 * height) := by
    simp [TOTAL_BYTE_LENGTH, BYTES_PER_ENTRY, AVERAGE_ENTRIES_PER_ROW]; ring
  simp only [gridEntries] at h
  rw [build_mask_map, buildRowsAux_eq_insertEntries,
    insertEntries_error height _ _ 0 (by omega) (by omega) (by omega)]

/-- Scanning the 5 bytes of one entry followed by more stream recovers the
entry with each field truncated to 10 bits. -/
theorem scanEntries_entry (id length start_x y : Nat) (rest : List Nat) :
    scanEntries (entry_to_bytes id length start_x y ++ rest) =
      (⟨id % 1024, start_x % 1024, y % 1024, length % 1024⟩ : MaskEntry) :: scanEntries rest := by
  rw [entry_to_bytes_eq]
  simp only [natLEBytes, List.cons_append, List.nil_append, scanEntries]
  congr 1
  simp only [decode_entry, entryVal, MaskEntry.mk.injEq]
  norm_num
  omega

theorem scanEntries_flatMap (es : List MaskEntry) (tail : List Nat) :
    scanEntries (es.flatMap entryBytesOf ++ tail) =
      es.map (fun e => (⟨e.id % 1024, e.start_x % 1024, e.y % 1024, e.length % 1024⟩ : MaskEntry))
        ++ scanEntries tail := by
  induction es with
  | nil => simp
  | cons e es ih =>
    simp only [List.flatMap_cons, List.map_cons, List.append_assoc, List.cons_append,
      entryBytesOf]
    rw [← List.append_assoc, List.append_assoc, scanEntries_entry, ih]

theorem scanEntries_replicate_zero (k : Nat) :
    scanEntries (List.replicate (5 * k) 0) =
      List.replicate k (⟨0, 0, 0, 0⟩ : MaskEntry) := by
  induction k with
  | zero => rfl
  | succ k ih =>
    have h5 : 5 * (k + 1) = 5 + 5 * k := by ring
    rw [h5, List.replicate_add]
    show scanEntries (0 :: 0 :: 0 :: 0 :: 0 :: List.replicate (5 * k) 0) = _
    rw [List.replicate_succ]
    simp only [scanEntries, ih]
    congr 1

/-! ### Re-rasterisation of a decoded entry stream (modelled from the spec) -/

/-- Modelled from the spec: paint one run of `len` cells with id `id` onto the
grid, starting at flat position `pos` (out-of-range positions are ignored). -/
def writeRun : List (Option Nat) → Nat → Nat → Nat → List (Option Nat)
  | grid, _, _, 0 => grid
  | grid, pos, id, len + 1 => writeRun (grid.set pos (some id)) (pos + 1) id len

/-- Modelled from the spec: paint one decoded RLE entry onto the flat
row-major grid. -/
def rasterizeEntry (width : Nat) (grid : List (Option Nat)) (e : MaskEntry) : List (Option Nat) :=
  writeRun grid (e.y * width + e.start_x) e.id e.length

/-- Modelled from the spec: re-rasterize a decoded entry stream onto an
initially empty width×height grid. -/
def rasterize (width height : Nat) (es : List MaskEntry) : List (Option Nat) :=
  es.foldl (rasterizeEntry width) (List.replicate (width * height) none)

/-- Modelled from the spec: the whole decoder — scan the stream, unpack the
10-bit fields of each entry and re-rasterize the runs. -/
def decode_mask_map (width height : Nat) (stream : List Nat) : List (Option Nat) :=
  rasterize width height (scanEntries stream)

/-- Whether entry `e` covers flat position `p` of a width-`width` grid. -/
def coversB (width : Nat) (e : MaskEntry) (p : Nat) : Bool :=
  decide (e.y * width + e.start_x ≤ p) && decide (p < e.y * width + e.start_x + e.length)

/-- The id of the last entry of `es` covering position `p`, if any: the value
rasterisation leaves at `p`. -/
def lastCover (width : Nat) (es : List MaskEntry) (p : Nat) : Option Nat :=
  es.foldl (fun acc e => if coversB width e p then some e.id else acc) none

theorem writeRun_length (len : Nat) :
    ∀ grid pos id, (writeRun grid pos id len).length = grid.length := by
  induction len with
  | zero => intro grid pos id; rfl
  | succ len ih => intro grid pos id; rw [writeRun, ih, List.length_set]

theorem writeRun_getElem? (len : Nat) :
    ∀ grid pos id p, (writeRun grid pos id len)[p]? =
      if pos ≤ p ∧ p < pos + len ∧ p < grid.length then some (some id) else grid[p]? := by
  induction len with
  | zero =>
    intro grid pos id p
    rw [writeRun, if_neg (by omega)]
  | succ len ih =>
    intro grid pos id p
    rw [writeRun, ih, List.length_set, List.getElem?_set]
    by_cases hp : pos = p
    · subst hp
      by_cases hr : pos < grid.length
      · have h1 : ¬(pos + 1 ≤ pos ∧ pos < pos + 1 + len ∧ pos < grid.length) := by omega
        have h2 : pos ≤ pos ∧ pos < pos + (len + 1) ∧ pos < grid.length := ⟨le_refl _, by omega, hr⟩
        rw [if_neg h1, if_pos rfl, if_pos hr, if_pos h2]
      · have h1 : ¬(pos + 1 ≤ pos ∧ pos < pos + 1 + len ∧ pos < grid.length) := by omega
        have h2 : ¬(pos ≤ pos ∧ pos < pos + (len + 1) ∧ pos < grid.length) := by omega
        rw [if_neg h1, if_pos rfl, if_neg hr, if_neg h2, List.getElem?_eq_none (by omega)]
    · rw [if_neg hp]
      by_cases hc : pos ≤ p ∧ p < pos + (len + 1) ∧ p < grid.length
      · have h1 : pos + 1 ≤ p ∧ p < pos + 1 + len ∧ p < grid.length := by omega
        rw [if_pos h1, if_pos hc]
      · have h1 : ¬(pos + 1 ≤ p ∧ p < pos + 1 + len ∧ p < grid.length) := by omega
        rw [if_neg h1, if_neg hc]

theorem foldl_rasterizeEntry_length (width : Nat) (es : List MaskEntry) :
    ∀ g : List (Option Nat), (es.foldl (rasterizeEntry width) g).length = g.length := by
  induction es with
  | nil => intro g; rfl
  | cons e es ih =>
    intro g
    rw [List.foldl_cons, ih, rasterizeEntry, writeRun_length]

theorem lastCover_foldl_init (width p : Nat) (es : List MaskEntry) :
    ∀ acc : Option Nat,
      es.foldl (fun acc e => if coversB width e p then some e.id else acc) acc =
        (lastCover width es p).or acc := by
  induction es with
  | nil => intro acc; rfl
  | cons e es ih =>
    intro acc
    rw [lastCover, List.foldl_cons, List.foldl_cons, ih, ih]
    cases hlc : lastCover width es p with
    | some v => rfl
    | none =>
      by_cases hc : coversB width e p
      · simp [hc]
      · simp [hc]

theorem lastCover_cons (width p : Nat) (e : MaskEntry) (es : List MaskEntry) :
    lastCover width (e :: es) p =
      (lastCover width es p).or (if coversB width e p then some e.id else none) := by
  rw [lastCover, List.foldl_cons, lastCover_foldl_init]

theorem lastCover_append (width p : Nat) (l1 l2 : List MaskEntry) :
    lastCover width (l1 ++ l2) p = (lastCover width l2 p).or (lastCover width l1 p) := by
  rw [lastCover, List.foldl_append, lastCover_foldl_init]
  rfl

theorem lastCover_eq_none (width p : Nat) (es : List MaskEntry)
    (h : ∀ e ∈ es, coversB width e p = false) : lastCover width es p = none := by
  induction es with
  | nil => rfl
  | cons e es ih =>
    rw [lastCover_cons, ih (fun e' he' => h e' (List.mem_cons_of_mem _ he')),
      if_neg (by rw [h e (List.mem_cons_self _ _)]; exact Bool.false_ne_true)]
    rfl

theorem foldl_rasterizeEntry_getElem? (width : Nat) (es : List MaskEntry) :
    ∀ (g : List (Option Nat)) (p : Nat),
      (es.foldl (rasterizeEntry width) g)[p]? =
        match lastCover width es p with
        | some v => if p < g.length then some (some v) else none
        | none => g[p]? := by
  induction es with
  | nil => intro g p; rfl
  | cons e es ih =>
    intro g p
    rw [List.foldl_cons, ih, lastCover_cons]
    have hglen : (rasterizeEntry width g e).length = g.length := by
      rw [rasterizeEntry, writeRun_length]
    have hcov : coversB width e p = true ↔
        (e.y * width + e.start_x ≤ p ∧ p < e.y * width + e.start_x + e.length) := by
      simp [coversB]
    have hre : (rasterizeEntry width g e)[p]? =
        if coversB width e p ∧ p < g.length then some (some e.id) else g[p]? := by
      rw [rasterizeEntry, writeRun_getElem?]
      by_cases hc : coversB width e p = true
      · have hc' := hcov.mp hc
        by_cases hr : p < g.length
        · rw [if_pos ⟨hc'.1, hc'.2, hr⟩, if_pos ⟨hc, hr⟩]
        · rw [if_neg (fun h => hr h.2.2), if_neg (fun h => hr h.2)]
      · have hc' : ¬(e.y * width + e.start_x ≤ p ∧ p < e.y * width + e.start_x + e.length) :=
          fun h => hc (hcov.mpr h)
        rw [if_neg (fun h => hc' ⟨h.1, h.2.1⟩), if_neg (fun h => hc h.1)]
    cases hlc : lastCover width es p with
    | some v => simp [hglen]
    | none =>
      rw [hre]
      by_cases hc : coversB width e p = true
      · by_cases hr : p < g.length
        · simp [hc, hr]
        · simp [hc, hr, List.getElem?_eq_none (show g.length ≤ p by omega)]
      · simp [hc]

/-- Loop invariant of the inner loop of `build_mask_map`: an open run
`some (id, start_x, length)` at column `x` is nonempty and extends exactly to
the current column. -/
def RunInv (x : Nat) : Option (Nat × Nat × Nat) → Prop
  | none => True
  | some (_, sx, len) => sx + len = x ∧ 0 < len

/-- The value an open run leaves at column `q` once flushed: its id on
`start_x ≤ q < x`, nothing elsewhere. -/
def curCover (cur : Option (Nat × Nat × Nat)) (x q : Nat) : Option Nat :=
  match cur with
  | some (id, sx, _) => if sx ≤ q ∧ q < x then some id else none
  | none => none

theorem rowRunsAux_bounds (y : Nat) (rest : List (Option Nat)) :
    ∀ x cur, RunInv x cur →
      ∀ e ∈ rowRunsAux y rest x cur,
        e.y = y ∧ 0 < e.length ∧ e.start_x + e.length ≤ x + rest.length := by
  induction rest with
  | nil =>
    intro x cur hcur e he
    match cur with
    | none => simp [rowRunsAux] at he
    | some (id, sx, len) =>
      obtain ⟨hx, hlen0⟩ := hcur
      simp only [rowRunsAux, List.mem_singleton] at he
      subst he
      exact ⟨rfl, hlen0, by simp only [List.length_nil]; omega⟩
  | cons px rest ih =>
    intro x cur hcur e he
    simp only [List.length_cons]
    match px, cur with
    | some id, some (sid, sx, len) =>
      obtain ⟨hx, hlen0⟩ := hcur
      simp only [rowRunsAux] at he
      by_cases h : sid = id
      · rw [if_pos h] at he
        have := ih (x + 1) (some (sid, sx, len + 1)) ⟨by omega, by omega⟩ e he
        exact ⟨this.1, this.2.1, by omega⟩
      · rw [if_neg h] at he
        rcases List.mem_cons.mp he with he | he
        · subst he
          exact ⟨rfl, hlen0, by show sx + len ≤ x + (rest.length + 1); omega⟩
        · have := ih (x + 1) (some (id, x, 1)) ⟨by omega, by omega⟩ e he
          exact ⟨this.1, this.2.1, by omega⟩
    | some id, none =>
      simp only [rowRunsAux] at he
      have := ih (x + 1) (some (id, x, 1)) ⟨by omega, by omega⟩ e he
      exact ⟨this.1, this.2.1, by omega⟩
    | none, some (sid, sx, len) =>
      obtain ⟨hx, hlen0⟩ := hcur
      simp only [rowRunsAux] at he
      rcases List.mem_cons.mp he with he | he
      · subst he
        exact ⟨rfl, hlen0, by show sx + len ≤ x + (rest.length + 1); omega⟩
      · have := ih (x + 1) none trivial e he
        exact ⟨this.1, this.2.1, by omega⟩
    | none, none =>
      simp only [rowRunsAux] at he
      have := ih (x + 1) none trivial e he
      exact ⟨this.1, this.2.1, by omega⟩

theorem rowRunsAux_id_mem (y : Nat) (rest : List (Option Nat)) :
    ∀ x cur, ∀ e ∈ rowRunsAux y rest x cur,
      some e.id ∈ rest ∨ (∃ sx len, cur = some (e.id, sx, len)) := by
  induction rest with
  | nil =>
    intro x cur e he
    match cur with
    | none => simp [rowRunsAux] at he
    | some (id, sx, len) =>
      simp only [rowRunsAux, List.mem_singleton] at he
      subst he
      exact Or.inr ⟨sx, len, rfl⟩
  | cons px rest ih =>
    intro x cur e he
    match px, cur with
    | some id, some (sid, sx, len) =>
      simp only [rowRunsAux] at he
      by_cases h : sid = id
      · rw [if_pos h] at he
        rcases ih (x + 1) (some (sid, sx, len + 1)) e he with hm | ⟨sx', len', hc⟩
        · exact Or.inl (List.mem_cons_of_mem _ hm)
        · have : e.id = sid := by
            have := congrArg (fun o => o.map Prod.fst) hc
            simpa using this.symm
          exact Or.inr ⟨sx, len, by rw [this]⟩
      · rw [if_neg h] at he
        rcases List.mem_cons.mp he with he | he
        · subst he
          exact Or.inr ⟨sx, len, rfl⟩
        · rcases ih (x + 1) (some (id, x, 1)) e he with hm | ⟨sx', len', hc⟩
          · exact Or.inl (List.mem_cons_of_mem _ hm)
          · have : e.id = id := by
              have := congrArg (fun o => o.map Prod.fst) hc
              simpa using this.symm
            exact Or.inl (by rw [this]; exact List.mem_cons_self _ _)
    | some id, none =>
      simp only [rowRunsAux] at he
      rcases ih (x + 1) (some (id, x, 1)) e he with hm | ⟨sx', len', hc⟩
      · exact Or.inl (List.mem_cons_of_mem _ hm)
      · have : e.id = id := by
          have := congrArg (fun o => o.map Prod.fst) hc
          simpa using this.symm
        exact Or.inl (by rw [this]; exact List.mem_cons_self _ _)
    | none, some (sid, sx, len) =>
      simp only [rowRunsAux] at he
      rcases List.mem_cons.mp he with he | he
      · subst he
        exact Or.inr ⟨sx, len, rfl⟩
      · rcases ih (x + 1) none e he with hm | ⟨sx', len', hc⟩
        · exact Or.inl (List.mem_cons_of_mem _ hm)
        · simp at hc
    | none, none =>
      simp only [rowRunsAux] at he
      rcases ih (x + 1) none e he with hm | ⟨sx', len', hc⟩
      · exact Or.inl (List.mem_cons_of_mem _ hm)
      · simp at hc

/-- Coverage of one row's runs: rasterising the runs flushed from column `x`
on, with open run `cur`, restores the remaining row on `[x, x + rest.length)`
and the open run's segment on `[start_x, x)`. -/
theorem lastCover_rowRunsAux (width y : Nat) (rest : List (Option Nat)) :
    ∀ x cur q, RunInv x cur →
      lastCover width (rowRunsAux y rest x cur) (y * width + q) =
        if x ≤ q ∧ q < x + rest.length then rest.getD (q - x) none
        else curCover cur x q := by
  induction rest with
  | nil =>
    intro x cur q hcur
    match cur with
    | none =>
      simp only [rowRunsAux, curCover, List.length_nil]
      rw [lastCover, List.foldl_nil, if_neg (show ¬(x ≤ q ∧ q < x + 0) by omega)]
    | some (id, sx, len) =>
      obtain ⟨hx, hlen0⟩ := hcur
      simp only [rowRunsAux, curCover, List.length_nil]
      have hcov : (coversB width ⟨id, sx, y, len⟩ (y * width + q) = true) ↔
          (sx ≤ q ∧ q < x) := by
        simp only [coversB, Bool.and_eq_true, decide_eq_true_eq]
        omega
      rw [lastCover_cons, lastCover, List.foldl_nil,
        if_neg (show ¬(x ≤ q ∧ q < x + 0) by omega)]
      simp only [hcov]
      split_ifs <;> rfl
  | cons px rest ih =>
    intro x cur q hcur
    simp only [List.length_cons]
    match px, cur with
    | some id, some (sid, sx, len) =>
      obtain ⟨hx, hlen0⟩ := hcur
      simp only [rowRunsAux, curCover]
      by_cases h : sid = id
      · rw [if_pos h, ih (x + 1) (some (sid, sx, len + 1)) q ⟨by omega, by omega⟩]
        simp only [curCover]
        split_ifs <;>
          first
          | rfl
          | (exfalso; omega)
          | (rw [show q - x = (q - (x + 1)) + 1 by omega, List.getD_cons_succ] <;> rfl)
          | (rw [show q - x = 0 by omega, List.getD_cons_zero, h] <;> rfl)
      · rw [if_neg h, lastCover_cons, ih (x + 1) (some (id, x, 1)) q ⟨by omega, by omega⟩]
        simp only [curCover]
        have hcov : (coversB width ⟨sid, sx, y, len⟩ (y * width + q) = true) ↔
            (sx ≤ q ∧ q < x) := by
          simp only [coversB, Bool.and_eq_true, decide_eq_true_eq]
          omega
        simp only [hcov]
        split_ifs <;>
          first
          | rfl
          | (exfalso; omega)
          | (rw [Option.or_none, show q - x = (q - (x + 1)) + 1 by omega, List.getD_cons_succ] <;> rfl)
          | (rw [show q - x = 0 by omega, List.getD_cons_zero] <;> rfl)
    | some id, none =>
      simp only [rowRunsAux, curCover]
      rw [ih (x + 1) (some (id, x, 1)) q ⟨by omega, by omega⟩]
      simp only [curCover]
      split_ifs <;>
        first
        | rfl
        | (exfalso; omega)
        | (rw [show q - x = (q - (x + 1)) + 1 by omega, List.getD_cons_succ] <;> rfl)
        | (rw [show q - x = 0 by omega, List.getD_cons_zero] <;> rfl)
    | none, some (sid, sx, len) =>
      obtain ⟨hx, hlen0⟩ := hcur
      simp only [rowRunsAux, curCover]
      rw [lastCover_cons, ih (x + 1) none q trivial]
      simp only [curCover]
      have hcov : (coversB width ⟨sid, sx, y, len⟩ (y * width + q) = true) ↔
          (sx ≤ q ∧ q < x) := by
        simp only [coversB, Bool.and_eq_true, decide_eq_true_eq]
        omega
      simp only [hcov]
      split_ifs <;>
        first
        | rfl
        | (exfalso; omega)
        | (rw [Option.or_none, show q - x = (q - (x + 1)) + 1 by omega, List.getD_cons_succ] <;> rfl)
        | (rw [show q - x = 0 by omega, List.getD_cons_zero] <;> rfl)
    | none, none =>
      simp only [rowRunsAux, curCover]
      rw [ih (x + 1) none q trivial]
      simp only [curCover]
      split_ifs <;>
        first
        | rfl
        | (exfalso; omega)
        | (rw [show q - x = (q - (x + 1)) + 1 by omega, List.getD_cons_succ] <;> rfl)
        | (rw [show q - x = 0 by omega, List.getD_cons_zero] <;> rfl)

theorem rowRuns_bounds (width : Nat) (pixels : List (Option Nat)) (y : Nat) :
    ∀ e ∈ rowRuns width pixels y,
      e.y = y ∧ 0 < e.length ∧ e.start_x + e.length ≤ width := by
  intro e he
  have h := rowRunsAux_bounds y (rowOf width pixels y) 0 none trivial e he
  have hrow : (rowOf width pixels y).length ≤ width := by
    rw [rowOf, List.length_take]
    omega
  exact ⟨h.1, h.2.1, by omega⟩

theorem rowRuns_id_mem (width : Nat) (pixels : List (Option Nat)) (y : Nat) :
    ∀ e ∈ rowRuns width pixels y, some e.id ∈ pixels := by
  intro e he
  rcases rowRunsAux_id_mem y (rowOf width pixels y) 0 none e he with hm | ⟨sx, len, hc⟩
  · exact List.mem_of_mem_drop (List.mem_of_mem_take hm)
  · simp at hc

theorem lastCover_rowRuns (width : Nat) (pixels : List (Option Nat)) (y q : Nat) :
    lastCover width (rowRuns width pixels y) (y * width + q) =
      (rowOf width pixels y).getD q none := by
  rw [rowRuns, lastCover_rowRunsAux width y _ 0 none q trivial]
  by_cases hq : q < (rowOf width pixels y).length
  · rw [if_pos ⟨Nat.zero_le _, by omega⟩, Nat.sub_zero]
  · rw [if_neg (by omega)]
    show none = (rowOf width pixels y).getD q none
    rw [List.getD_eq_getElem?_getD, List.getElem?_eq_none (by omega)]
    rfl

theorem rowRuns_noCover (width : Nat) (pixels : List (Option Nat)) (y' y q : Nat)
    (hne : y' ≠ y) (hq : q < width) :
    ∀ e ∈ rowRuns width pixels y', coversB width e (y * width + q) = false := by
  intro e he
  obtain ⟨hey, hlen, hbnd⟩ := rowRuns_bounds width pixels y' e he
  have key : ∀ a b : Nat, a < b → a * width + width ≤ b * width := by
    intro a b hab
    calc a * width + width = (a + 1) * width := by ring
    _ ≤ b * width := Nat.mul_le_mul_right _ hab
  rw [← Bool.not_eq_true]
  simp only [coversB, Bool.and_eq_true, decide_eq_true_eq, not_and_or, not_le, not_lt]
  rw [hey]
  rcases Nat.lt_or_ge y' y with hlt | hge
  · have := key y' y hlt
    omega
  · have hgt : y < y' := by omega
    have := key y y' hgt
    omega

theorem lastCover_rows (width : Nat) (pixels : List (Option Nat)) (y q : Nat) (hq : q < width) :
    ∀ ys : List Nat,
      lastCover width (ys.flatMap (rowRuns width pixels)) (y * width + q) =
        if y ∈ ys then lastCover width (rowRuns width pixels y) (y * width + q) else none := by
  intro ys
  induction ys with
  | nil =>
    rw [List.flatMap_nil, if_neg (List.not_mem_nil y)]
    rfl
  | cons y' ys ih =>
    rw [List.flatMap_cons, lastCover_append, ih]
    by_cases hyy : y' = y
    · subst hyy
      by_cases hmem : y' ∈ ys
      · rw [if_pos hmem, if_pos (List.mem_cons_self _ _)]
        cases hv : lastCover width (rowRuns width pixels y') (y' * width + q) with
        | some v => rfl
        | none => rfl
      · rw [if_neg hmem, if_pos (List.mem_cons_self _ _)]
        rfl
    · have hnc : lastCover width (rowRuns width pixels y') (y * width + q) = none :=
        lastCover_eq_none _ _ _ (rowRuns_noCover width pixels y' y q hyy hq)
      rw [hnc]
      by_cases hmem : y ∈ ys
      · rw [if_pos hmem, if_pos (List.mem_cons_of_mem _ hmem), Option.or_none]
      · rw [if_neg hmem,
          if_neg (by rw [List.mem_cons]; push_neg; exact ⟨fun h => hyy h.symm, hmem⟩)]
        rfl

theorem lastCover_gridEntries (width height : Nat) (pixels : List (Option Nat)) (y q : Nat)
    (hy : y < height) (hq : q < width) :
    lastCover width (gridEntries width height pixels) (y * width + q) =
      (rowOf width pixels y).getD q none := by
  rw [gridEntries, lastCover_rows width pixels y q hq, if_pos (List.mem_range.mpr hy),
    lastCover_rowRuns]

theorem gridEntries_fields (width height : Nat) (pixels : List (Option Nat))
    (hw : width < 1024) (hh : height < 1024)
    (hid : ∀ v : Nat, some v ∈ pixels → v < 1024) :
    ∀ e ∈ gridEntries width height pixels,
      (⟨e.id % 1024, e.start_x % 1024, e.y % 1024, e.length % 1024⟩ : MaskEntry) = e := by
  intro e he
  rw [gridEntries] at he
  obtain ⟨y', hy', he'⟩ := List.mem_flatMap.mp he
  have hb := rowRuns_bounds width pixels y' e he'
  have hidlt : e.id < 1024 := hid _ (rowRuns_id_mem width pixels y' e he')
  have hy'lt : y' < height := List.mem_range.mp hy'
  obtain ⟨e1, e2, e3, e4⟩ := e
  dsimp only at hb hidlt ⊢
  simp only [MaskEntry.mk.injEq]
  refine ⟨?_, ?_, ?_, ?_⟩ <;> omega

/-- C1: for every width×height grid of optional mask ids (ids below 1024,
per the data model, geometry below 1024 per the format invariants) whose
total number of horizontal same-id runs is at most 52·height, mask encoding
succeeds, and decoding the produced RLE stream (scanning it, unpacking the
10-bit fields of each entry and re-rasterizing the runs onto a width×height
grid) reproduces the original mask-id grid exactly. -/
theorem mask_roundtrip (width height : Nat) (pixels : List (Option Nat))
    (hw : width < 1024) (hh : height < 1024)
    (hlen : pixels.length = width * height)
    (hid : ∀ v : Nat, some v ∈ pixels → v < 1024)
    (hcap : (gridEntries width height pixels).length ≤ 52 * height) :
    ∃ stream, build_mask_map width height pixels = Except.ok stream ∧
      decode_mask_map width height stream = pixels := by
  refine ⟨_, build_mask_map_ok width height pixels hcap, ?_⟩
  have hT5 : TOTAL_BYTE_LENGTH height - 5 * (gridEntries width height pixels).length =
      5 * (52 * height - (gridEntries width height pixels).length) := by
    simp only [TOTAL_BYTE_LENGTH, BYTES_PER_ENTRY, AVERAGE_ENTRIES_PER_ROW]
    omega
  rw [decode_mask_map, hT5, scanEntries_flatMap, scanEntries_replicate_zero,
    List.map_congr_left (gridEntries_fields width height pixels hw hh hid), List.map_id']
  apply List.ext_getElem?
  intro p
  rw [rasterize, foldl_rasterizeEntry_getElem?, lastCover_append,
    lastCover_eq_none width p _ (fun e hez => by
      rw [List.eq_of_mem_replicate hez]
      simp [coversB]),
    Option.none_or, List.length_replicate]
  by_cases hp : p < width * height
  · have hw0 : 0 < width := by
      rcases Nat.eq_zero_or_pos width with h0 | h0
      · subst h0
        simp at hp
      · exact h0
    obtain ⟨y, q, hq, rfl⟩ : ∃ y q, q < width ∧ p = y * width + q :=
      ⟨p / width, p % width, Nat.mod_lt _ hw0, by
        rw [Nat.mul_comm]
        exact (Nat.div_add_mod p width).symm⟩
    have hy : y < height := by
      by_contra hge
      push_neg at hge
      have h1 := Nat.mul_le_mul_right width hge
      have h2 : width * height = height * width := Nat.mul_comm _ _
      omega
    rw [lastCover_gridEntries width height pixels y q hy hq]
    have hrow : (rowOf width pixels y).getD q none = pixels.getD (y * width + q) none := by
      rw [rowOf, List.getD_eq_getElem?_getD, List.getD_eq_getElem?_getD,
        List.getElem?_take_of_lt hq, List.getElem?_drop]
    rw [hrow, List.getD_eq_getElem?_getD]
    cases hpx : pixels[y * width + q]? with
    | none =>
      rw [List.getElem?_eq_none_iff] at hpx
      omega
    | some o =>
      cases o with
      | none =>
        show (List.replicate (width * height) (none : Option Nat))[y * width + q]? = some none
        rw [List.getElem?_replicate_of_lt hp]
      | some v =>
        show (if y * width + q < width * height then some (some v) else none) = some (some v)
        rw [if_pos hp]
  · cases hv : lastCover width (gridEntries width height pixels) p with
    | some v =>
      show (if p < width * height then some (some v) else none) = pixels[p]?
      rw [if_neg hp, Eq.comm, List.getElem?_eq_none_iff]
      omega
    | none =>
      show (List.replicate (width * height) (none : Option Nat))[p]? = pixels[p]?
      rw [List.getElem?_eq_none (by rw [List.length_replicate]; omega),
        Eq.comm, List.getElem?_eq_none_iff]
      omega

/-- C1 witness: the round-trip applied to the 2×1 grid `[some 5, none]`. -/
theorem mask_roundtrip_witness :
    (2 < 1024 ∧ 1 < 1024 ∧ ([some 5, none] : List (Option Nat)).length = 2 * 1 ∧
      (gridEntries 2 1 [some 5, none]).length ≤ 52 * 1) ∧
    (∃ stream, build_mask_map 2 1 [some 5, none] = Except.ok stream ∧
      decode_mask_map 2 1 stream = [some 5, none]) :=
  ⟨by decide, mask_roundtrip 2 1 [some 5, none] (by decide) (by decide) (by decide)
    (by intro v hv; simp at hv; omega) (by decide)⟩

/-! ### Run counts of special grids -/

theorem rowRunsAux_replicate (y id : Nat) (m : Nat) :
    ∀ x sx len, rowRunsAux y (List.replicate m (some id)) x (some (id, sx, len)) =
      [⟨id, sx, y, len + m⟩] := by
  induction m with
  | zero => intro x sx len; rfl
  | succ m ih =>
    intro x sx len
    rw [List.replicate_succ]
    simp only [rowRunsAux, if_pos rfl]
    rw [ih]
    have h : len + 1 + m = len + (m + 1) := by omega
    rw [h, if_pos trivial]

theorem rowRuns_full_row (width y id : Nat) (hw : 0 < width) :
    rowRunsAux y (List.replicate width (some id)) 0 none = [⟨id, 0, y, width⟩] := by
  obtain ⟨w, rfl⟩ : ∃ w, width = w + 1 := ⟨width - 1, by omega⟩
  rw [List.replicate_succ]
  simp only [rowRunsAux]
  rw [rowRunsAux_replicate]
  have h : 1 + w = w + 1 := by omega
  rw [h]

theorem rowOf_replicate (width height y id : Nat) (hy : y < height) :
    rowOf width (List.replicate (width * height) (some id)) y =
      List.replicate width (some id) := by
  rw [rowOf, List.drop_replicate, List.take_replicate]
  congr 1
  have h1 : (y + 1) * width ≤ height * width := Nat.mul_le_mul_right _ (by omega)
  have h2 : (y + 1) * width = y * width + width := by ring
  have h3 : height * width = width * height := Nat.mul_comm _ _
  omega

theorem flatMap_eq_map_of_singleton {α β : Type} (f : α → List β) (g : α → β) :
    ∀ l : List α, (∀ a ∈ l, f a = [g a]) → l.flatMap f = l.map g := by
  intro l
  induction l with
  | nil => intro h; rfl
  | cons a l ih =>
    intro h
    rw [List.flatMap_cons, List.map_cons, h a (List.mem_cons_self _ _),
      ih (fun a' ha' => h a' (List.mem_cons_of_mem _ ha'))]
    rfl

theorem gridEntries_replicate (width height id : Nat) (hw : 0 < width) :
    gridEntries width height (List.replicate (width * height) (some id)) =
      (List.range height).map (fun y => ⟨id, 0, y, width⟩) := by
  rw [gridEntries]
  apply flatMap_eq_map_of_singleton
  intro y hy
  rw [rowRuns, rowOf_replicate width height y id (List.mem_range.mp hy),
    rowRuns_full_row width y id hw]

/-- C3: appending an RLE entry that would exceed the fixed capacity of
5 bytes · 52 entries · height rows is a hard, immediate error whose message
names the attempted byte total and the allowed byte total; within capacity
the returned stream contains the 5 bytes of every run in order (no entry is
truncated or silently dropped); and a full-grid mask using one id everywhere
yields exactly `height` RLE entries. -/
theorem mask_capacity (width height : Nat) (pixels : List (Option Nat)) (id : Nat)
    (hw : 0 < width) :
    (52 * height < (gridEntries width height pixels).length →
      build_mask_map width height pixels =
        Except.error
          s!"More entries ({TOTAL_BYTE_LENGTH height + 5}) than allowed ({TOTAL_BYTE_LENGTH height})") ∧
    ((gridEntries width height pixels).length ≤ 52 * height →
      build_mask_map width height pixels =
        Except.ok ((gridEntries width height pixels).flatMap entryBytesOf ++
          List.replicate
            (TOTAL_BYTE_LENGTH height - 5 * (gridEntries width height pixels).length) 0)) ∧
    (gridEntries width height (List.replicate (width * height) (some id))).length = height := by
  refine ⟨build_mask_map_error width height pixels, build_mask_map_ok width height pixels, ?_⟩
  rw [gridEntries_replicate width height id hw, List.length_map, List.length_range]

/-- C3 witness: the capacity behaviour evaluated on the 1×1 grid `[none]`
with full-grid id 7. -/
theorem mask_capacity_witness :
    (0 < 1) ∧
    ((52 * 1 < (gridEntries 1 1 [none]).length →
      build_mask_map 1 1 [none] =
        Except.error
          s!"More entries ({TOTAL_BYTE_LENGTH 1 + 5}) than allowed ({TOTAL_BYTE_LENGTH 1})") ∧
    ((gridEntries 1 1 [none]).length ≤ 52 * 1 →
      build_mask_map 1 1 [none] =
        Except.ok ((gridEntries 1 1 [none]).flatMap entryBytesOf ++
          List.replicate (TOTAL_BYTE_LENGTH 1 - 5 * (gridEntries 1 1 [none]).length) 0)) ∧
    (gridEntries 1 1 (List.replicate (1 * 1) (some 7))).length = 1) :=
  ⟨by decide, mask_capacity 1 1 [none] 7 (by decide)⟩

/-- C6 (amended): the encoder does not validate mask-id width: for any grid
whose run count fits the capacity, `build_mask_map` succeeds even when some
ids are 1024 or larger, and each stored entry keeps only the low 10 bits of
each field (oversized ids are silently truncated, not rejected). -/
theorem mask_id_truncation (width height : Nat) (pixels : List (Option Nat))
    (hcap : (gridEntries width height pixels).length ≤ 52 * height) :
    ∃ stream, build_mask_map width height pixels = Except.ok stream ∧
      scanEntries stream =
        (gridEntries width height pixels).map
          (fun e => ⟨e.id % 1024, e.start_x % 1024, e.y % 1024, e.length % 1024⟩) ++
        List.replicate (52 * height - (gridEntries width height pixels).length)
          ⟨0, 0, 0, 0⟩ := by
  refine ⟨_, build_mask_map_ok width height pixels hcap, ?_⟩
  have hT5 : TOTAL_BYTE_LENGTH height - 5 * (gridEntries width height pixels).length =
      5 * (52 * height - (gridEntries width height pixels).length) := by
    simp only [TOTAL_BYTE_LENGTH, BYTES_PER_ENTRY, AVERAGE_ENTRIES_PER_ROW]
    omega
  rw [hT5, scanEntries_flatMap, scanEntries_replicate_zero]

/-- C6 witness: truncation behaviour on the 1×1 grid `[some 1024]`. -/
theorem mask_id_truncation_witness :
    ((gridEntries 1 1 [some 1024]).length ≤ 52 * 1) ∧
    (∃ stream, build_mask_map 1 1 [some 1024] = Except.ok stream ∧
      scanEntries stream =
        (gridEntries 1 1 [some 1024]).map
          (fun e => ⟨e.id % 1024, e.start_x % 1024, e.y % 1024, e.length % 1024⟩) ++
        List.replicate (52 * 1 - (gridEntries 1 1 [some 1024]).length) ⟨0, 0, 0, 0⟩) :=
  ⟨by decide, mask_id_truncation 1 1 [some 1024] (by decide)⟩

/-- C6 counterexample: the 1×1 grid `[some 1024]` contains a mask id that
does not fit in 10 bits, yet `build_mask_map` succeeds — its single entry
stores id 1024 % 1024 = 0 (bytes `[0,0,0,64,0]` encode id=0, start_x=0,
y=0, length=1) — rather than failing with an error. -/
theorem mask_id_validation_counterexample :
    build_mask_map 1 1 [some 1024] =
      Except.ok ([0, 0, 0, 64, 0] ++ List.replicate 255 0) := by rfl

/-! ### Manifest data model

The encoder consumes types from `crate::manifest` (`manifest.rs` is not among
the provided sources); their shape is modelled from the spec's data model
(§3) and from how `encode_format.rs` uses them.  Screen dimensions are
modelled as already-rounded naturals (the source stores floats and rounds
them when packing). -/

/-- Modelled from the spec: the 9 MPU variants. -/
inductive CPUType
  | SM510 | SM511 | SM512 | SM530 | SM5a
  | SM510Tiger | SM511Tiger1Bit | SM511Tiger2Bit | KB1013VK12
deriving DecidableEq

/-- Modelled from the spec: the 30 logical input actions. -/
inductive Action
  | JoyUp | JoyDown | JoyLeft | JoyRight
  | Button1 | Button2 | Button3 | Button4 | Button5 | Button6 | Button7 | Button8
  | Select | Start1 | Start2 | Service1 | Service2
  | LeftJoyUp | LeftJoyDown | LeftJoyLeft | LeftJoyRight
  | RightJoyUp | RightJoyDown | RightJoyLeft | RightJoyRight
  | VolumeDown | PowerOn | PowerOff | Keypad | Custom | Unused
deriving DecidableEq

/-- Modelled from the spec: one mapped action with its polarity. -/
structure NamedAction where
  action : Action
  active_low : Bool
  name : Option String
deriving DecidableEq

/-- Modelled from the spec: one screen half of a dual-screen device. -/
structure ScreenDims where
  width : Nat
  height : Nat
deriving DecidableEq

/-- Modelled from the spec: the screen geometry variants. -/
inductive Screen
  | Single (width height : Nat)
  | DualVertical (top bottom : ScreenDims)
  | DualHorizontal (left right : ScreenDims)
deriving DecidableEq

/-- Modelled from the spec: the four action slots of one S port
(`[Option<NamedAction>; 4]`). -/
structure SlotMap where
  s0 : Option NamedAction
  s1 : Option NamedAction
  s2 : Option NamedAction
  s3 : Option NamedAction
deriving DecidableEq

/-- Modelled from the spec: the port variants. -/
inductive Port
  | S (index : Nat) (bitmap : SlotMap)
  | ACL (bit : Option NamedAction)
  | B (bit : Option NamedAction)
  | BA (bit : Option NamedAction)
deriving DecidableEq

/-- Modelled from the spec: the port map of a platform. -/
structure PortMap where
  ports : List Port
  ground_last_index : Option Nat
deriving DecidableEq

/-- Modelled from the spec: the ROM reference of a platform. -/
structure RomSpec where
  rom : String
  rom_hash : String
deriving DecidableEq

/-- Modelled from the spec: platform display metadata. -/
structure Metadata where
  name : String
  company : String
deriving DecidableEq

/-- Modelled from the spec: the device description. -/
structure Device where
  cpu : CPUType
  screen : Screen
deriving DecidableEq

/-- Modelled from the spec: one full platform description. -/
structure PlatformSpecification where
  device : Device
  port_map : PortMap
  rom : RomSpec
  metadata : Metadata
deriving DecidableEq

/-! ### Header/config builder (`build_config`, encode_format.rs:121–278) -/

/-- Embedding of `input_value_for_port` (encode_format.rs:281–321): the fixed
ordinal of the action in the low 7 bits, bit 7 set iff `active_low`. -/
def input_value_for_port (action : NamedAction) : Nat :=
  let input : Nat :=
    match action.action with
    | Action.JoyUp => 0
    | Action.JoyDown => 1
    | Action.JoyLeft => 2
    | Action.JoyRight => 3
    | Action.Button1 => 4
    | Action.Button2 => 5
    | Action.Button3 => 6
    | Action.Button4 => 7
    | Action.Button5 => 8
    | Action.Button6 => 9
    | Action.Button7 => 10
    | Action.Button8 => 11
    | Action.Select => 12
    | Action.Start1 => 13
    | Action.Start2 => 14
    | Action.Service1 => 15
    | Action.Service2 => 16
    | Action.LeftJoyUp => 17
    | Action.LeftJoyDown => 18
    | Action.LeftJoyLeft => 19
    | Action.LeftJoyRight => 20
    | Action.RightJoyUp => 21
    | Action.RightJoyDown => 22
    | Action.RightJoyLeft => 23
    | Action.RightJoyRight => 24
    | Action.VolumeDown => 25
    | Action.PowerOn => 26
    | Action.PowerOff => 27
    | Action.Keypad => 28
    | Action.Custom => 29
    | Action.Unused => 0x7F
  if action.active_low then input ||| 0x80 else input

/-- The MPU version byte of `build_config` (encode_format.rs:127–137). -/
def mpu_version : CPUType → Nat
  | CPUType.SM510 => 0
  | CPUType.SM511 => 1
  | CPUType.SM512 => 2
  | CPUType.SM530 => 3
  | CPUType.SM5a => 4
  | CPUType.SM510Tiger => 5
  | CPUType.SM511Tiger1Bit => 6
  | CPUType.SM511Tiger2Bit => 7
  | CPUType.KB1013VK12 => 8

/-- The screen byte and effective dimensions of `build_config`
(encode_format.rs:142–158): dual-screen devices use the first-declared
half's dimensions (the source's mismatch warning is only a log line). -/
def screen_config : Screen → Nat × Nat × Nat
  | Screen.Single width height => (0, width, height)
  | Screen.DualVertical top _ => (1, top.width, top.height)
  | Screen.DualHorizontal left _ => (2, left.width, left.height)

/-- State of the port-classification loop of `build_config`
(encode_format.rs:174–192): the 8 optional S-port slot maps plus the
optional B, BA and ACL actions, each later assignment overwriting earlier
ones. -/
structure PortState where
  s_ports : List (Option SlotMap)
  b_port : Option NamedAction
  ba_port : Option NamedAction
  acl_port : Option NamedAction

/-- Initial port state: all 8 S ports and the B/BA/ACL ports unset. -/
def init_port_state : PortState := ⟨List.replicate 8 none, none, none, none⟩

/-- The port-classification loop of `build_config`: an S index above 7 is an
immediate error. -/
def classify_ports : List Port → PortState → Except String PortState
  | [], st => Except.ok st
  | p :: ps, st =>
    match p with
    | Port.S index bitmap =>
      if index > 7 then Except.error s!"Port index {index} is out of bounds"
      else classify_ports ps { st with s_ports := st.s_ports.set index (some bitmap) }
    | Port.ACL bit => classify_ports ps { st with acl_port := bit }
    | Port.B bit => classify_ports ps { st with b_port := bit }
    | Port.BA bit => classify_ports ps { st with ba_port := bit }

/-- One slot byte of the S-port block: the action byte, or the sentinel 0x7F
for an absent slot. -/
def slot_byte : Option NamedAction → Nat
  | some action => input_value_for_port action
  | none => 0x7F

/-- The 4 bytes of one S port; a wholly absent port still emits 4 sentinel
bytes (encode_format.rs:194–210). -/
def s_port_bytes : Option SlotMap → List Nat
  | some bm => [slot_byte bm.s0, slot_byte bm.s1, slot_byte bm.s2, slot_byte bm.s3]
  | none => [0x7F, 0x7F, 0x7F, 0x7F]

/-- The `unused_action` default of `build_config` (encode_format.rs:212–216).
Note the source initialises it with `active_low: true`. -/
def unused_action : NamedAction := ⟨Action.Unused, true, none⟩

/-- The 7-byte build stamp (encode_format.rs:265–276): the first 7 bytes of
the revision string (`c as u8` truncates each char), or 7 zero bytes when
the string is empty.  The source reads the string from the compile-time
env var `VERGEN_GIT_SHA`; the embedding takes it as the argument `sha`. -/
def stamp_bytes (sha : String) : List Nat :=
  if sha.length < 1 then List.replicate 7 0
  else (sha.toList.take 7).map (fun c => c.toNat % 256)

/-- Embedding of `build_config` (encode_format.rs:121–278): version byte, MPU
byte, screen byte, 3-byte geometry, 2 reserved bytes, 32 S-port bytes, the
B/BA/ACL bytes, the ground-index byte, 4 spacer bytes, 0xC9 reserved bytes,
and the 7-byte build stamp. -/
def build_config (platform : PlatformSpecification) (sha : String) :
    Except String (List Nat) :=
  let sc := screen_config platform.device.screen
  match classify_ports platform.port_map.ports init_port_state with
  | Except.error msg => Except.error msg
  | Except.ok st =>
    let b_byte := match st.b_port with
      | some b => input_value_for_port b
      | none => input_value_for_port { unused_action with active_low := true }
    let ba_byte := match st.ba_port with
      | some b => input_value_for_port b
      | none => input_value_for_port { unused_action with active_low := true }
    let acl_byte := match st.acl_port with
      | some b => input_value_for_port b
      | none => input_value_for_port unused_action
    let ground_index := match platform.port_map.ground_last_index with
      | some gli => (gli + 1) % 256
      | none => 0
    Except.ok ([1, mpu_version platform.device.cpu, sc.1] ++
      geometry_bytes sc.2.1 sc.2.2 ++ [0, 0] ++
      st.s_ports.flatMap s_port_bytes ++
      [b_byte, ba_byte, acl_byte, ground_index] ++
      List.replicate 4 0 ++ List.replicate 0xC9 0 ++ stamp_bytes sha)

theorem geometry_bytes_length (width height : Nat) :
    (geometry_bytes width height).length = 3 := by
  rw [geometry_bytes_eq, natLEBytes_length]

theorem s_port_bytes_length (o : Option SlotMap) : (s_port_bytes o).length = 4 := by
  cases o <;> rfl

theorem flatMap_s_port_bytes_length (l : List (Option SlotMap)) :
    (l.flatMap s_port_bytes).length = 4 * l.length := by
  induction l with
  | nil => rfl
  | cons o l ih =>
    rw [List.flatMap_cons, List.length_append, s_port_bytes_length, ih, List.length_cons]
    ring

theorem classify_ports_only_s (ps : List Port) :
    (∀ p ∈ ps, ∃ i bm, p = Port.S i bm ∧ i ≤ 7) →
    ∀ st : PortState, ∃ sp : List (Option SlotMap),
      classify_ports ps st = Except.ok ⟨sp, st.b_port, st.ba_port, st.acl_port⟩ ∧
      sp.length = st.s_ports.length := by
  induction ps with
  | nil => intro _ st; exact ⟨st.s_ports, rfl, rfl⟩
  | cons p ps ih =>
    intro h st
    obtain ⟨i, bm, rfl, hle⟩ := h p (List.mem_cons_self _ _)
    simp only [classify_ports, if_neg (show ¬ i > 7 by omega)]
    obtain ⟨sp, hcl, hlen⟩ :=
      ih (fun p hp => h p (List.mem_cons_of_mem _ hp))
        { st with s_ports := st.s_ports.set i (some bm) }
    exact ⟨sp, hcl, by rw [hlen]; simp⟩

/-- C5 behaviour of the code: for every platform whose port list contains
only S ports with valid indices — in particular no B, no BA and no ACL
port — the built header has bytes 0xFF, 0xFF, 0xFF at offsets 40, 41 and
42.  B and BA match the claim (Unused with active_low set), but the ACL
byte is 0xFF as well, not the 0x7F the claim states: `unused_action` is
initialised with `active_low: true` in the source, so the ACL default is
`0x7F | 0x80` (the `active_low = true` override for B/BA is dead code). -/
theorem unmapped_port_bytes (platform : PlatformSpecification) (sha : String)
    (hS : ∀ p ∈ platform.port_map.ports, ∃ i bm, p = Port.S i bm ∧ i ≤ 7) :
    ∃ pre tail, build_config platform sha =
        Except.ok (pre ++ 0xFF :: 0xFF :: 0xFF :: tail) ∧
      pre.length = 40 ∧ (0xFF : Nat) ≠ 0x7F := by
  obtain ⟨sp, hcl, hlen⟩ := classify_ports_only_s platform.port_map.ports hS init_port_state
  have hlen8 : sp.length = 8 := by rw [hlen]; rfl
  refine ⟨[1, mpu_version platform.device.cpu, (screen_config platform.device.screen).1] ++
      geometry_bytes (screen_config platform.device.screen).2.1
        (screen_config platform.device.screen).2.2 ++ [0, 0] ++ sp.flatMap s_port_bytes,
    (match platform.port_map.ground_last_index with
      | some gli => (gli + 1) % 256
      | none => 0) ::
      (List.replicate 4 0 ++ List.replicate 0xC9 0 ++ stamp_bytes sha), ?_, ?_, by decide⟩
  · rw [build_config, hcl]
    simp only [List.append_assoc, List.cons_append, List.nil_append]
    rfl
  · simp only [List.length_append, List.length_cons, List.length_nil,
      geometry_bytes_length, flatMap_s_port_bytes_length, hlen8]

/-- A concrete platform description with an empty port list: the spec's
example device. -/
def ballPlatform : PlatformSpecification :=
  ⟨⟨CPUType.SM510, Screen.Single 80 64⟩, ⟨[], none⟩, ⟨"gnw_ball", "hash_ball"⟩,
    ⟨"Game & Watch: Ball", "Nintendo"⟩⟩

/-- C5 witness: the port-default bytes evaluated on a platform with no ports
at all. -/
theorem unmapped_port_bytes_witness :
    (∀ p ∈ ballPlatform.port_map.ports, ∃ i bm, p = Port.S i bm ∧ i ≤ 7) ∧
    (∃ pre tail, build_config ballPlatform "abcdefg" =
        Except.ok (pre ++ 0xFF :: 0xFF :: 0xFF :: tail) ∧
      pre.length = 40 ∧ (0xFF : Nat) ≠ 0x7F) :=
  ⟨by intro p hp; simp [ballPlatform] at hp,
    unmapped_port_bytes ballPlatform "abcdefg"
      (by intro p hp; simp [ballPlatform] at hp)⟩

/-! ### Pixel packer (encode_format.rs:31–52) -/

/-- The alpha-dropping filter of `encode`: keep a zipped pair while the
cycling counter is below 3, drop every 4th pair and reset the counter. -/
def dropAlphaAux : Nat → List (Nat × Nat) → List (Nat × Nat)
  | _, [] => []
  | count, p :: rest =>
    if count < 3 then p :: dropAlphaAux (count + 1) rest else dropAlphaAux 0 rest

/-- Embedding of the pixel interleaving of `encode`: zip the background and
mask byte streams, drop every 4th (alpha) pair, and emit the background byte
then the mask byte of each kept pair. -/
def image_block (background_bytes mask_bytes : List Nat) : List Nat :=
  (dropAlphaAux 0 (background_bytes.zip mask_bytes)).flatMap (fun p => [p.1, p.2])

/-! ### File-system model and ROM resolution (encode_format.rs:59–69, 88–119)

The file system is modelled explicitly and as stable: a directory is a list
of entries in listing order, each entry either readable (opening, hashing
and re-reading all succeed) or not (opening or hashing fails and the scan
skips it).  The SHA-1 digest is abstracted as a function from contents to
hex strings. -/

/-- One directory entry: file name, readability, contents. -/
structure DirEntry where
  name : String
  readable : Bool
  contents : List Nat

/-- The asset directory: whether `read_dir` succeeds, and the entries in
listing order. -/
structure AssetDir where
  openable : Bool
  entries : List DirEntry

/-- Model of `fs::read(asset_dir.join(name))`: succeeds when the directory
resolves and a readable entry with exactly that name exists. -/
def read_file (dir : AssetDir) (name : String) : Option (List Nat) :=
  if dir.openable then
    match dir.entries.find? (fun e => e.name == name) with
    | some e => if e.readable then some e.contents else none
    | none => none
  else none

/-- The scan loop of `find_rom_by_hash`: skip unreadable entries and return
the contents of the first readable entry whose digest equals the target
(digests are compared as exact strings). -/
def find_rom_scan (h : List Nat → String) (target_hash : String) :
    List DirEntry → Except String (List Nat)
  | [] => Except.error "No SHA matched ROM found"
  | e :: rest =>
    if e.readable then
      if h e.contents = target_hash then Except.ok e.contents
      else find_rom_scan h target_hash rest
    else find_rom_scan h target_hash rest

/-- Embedding of `find_rom_by_hash` (encode_format.rs:88–119).  `none`
models the panic of `read_dir(...).expect("Could not open temp directory")`
when the directory cannot be opened: the source aborts the whole process
there instead of returning an error.  With the stable file-system model a
file that was hashed can also be re-read, so the source's re-read error
branches are unreachable. -/
def find_rom_by_hash (h : List Nat → String) (target_hash : String) (dir : AssetDir) :
    Option (Except String (List Nat)) :=
  if dir.openable then some (find_rom_scan h target_hash dir.entries) else none

/-- The ROM-resolution step of `encode` (encode_format.rs:61–69): read by
path, fall back to the hash scan, and wrap the scan's error with the
originally attempted path (in quotes, as the `{rom_path:?}` debug format
prints it). -/
def resolve_rom (h : List Nat → String) (dir : AssetDir) (asset_dir_path : String)
    (platform : PlatformSpecification) : Option (Except String (List Nat)) :=
  match read_file dir platform.rom.rom with
  | some data => some (Except.ok data)
  | none =>
    match find_rom_by_hash h platform.rom.rom_hash dir with
    | none => none
    | some (Except.error err) =>
      some (Except.error
        (err ++ "\nCould not open ROM \"" ++ (asset_dir_path ++ "/" ++ platform.rom.rom) ++ "\""))
    | some (Except.ok data) => some (Except.ok data)

/-! ### Output-name derivation and assembly (`encode`, encode_format.rs:19–86) -/

/-- Replace every colon by " -" (`String::replace(":", " -")`). -/
def replace_colon (cs : List Char) : List Char :=
  cs.flatMap (fun c => if c = ':' then [' ', '-'] else [c])

/-- Trim leading and trailing whitespace (`str::trim`). -/
def trim_chars (cs : List Char) : List Char :=
  ((cs.dropWhile Char.isWhitespace).reverse.dropWhile Char.isWhitespace).reverse

/-- Literal prefix test (`str::starts_with` on char lists). -/
def starts_with_chars : List Char → List Char → Bool
  | _, [] => true
  | [], _ :: _ => false
  | c :: cs, p :: ps => c == p && starts_with_chars cs ps

/-- Embedding of the output-name derivation of `encode`
(encode_format.rs:73–80): lowercase the name (modelled character-wise) and
test the literal prefix "game & watch:"; on a match skip the first 13
characters of the original name; replace every colon by " -"; trim
surrounding whitespace. -/
def derive_game_name (name : String) : String :=
  let chars := name.toList
  let chars :=
    if starts_with_chars (chars.map Char.toLower) "game & watch:".toList then
      chars.drop "Game & Watch:".toList.length
    else chars
  String.mk (trim_chars (replace_colon chars))

/-- Embedding of `encode` (encode_format.rs:19–86).  File-system effects are
explicit: `h` is the SHA-1 hex digest function, `dir` the asset directory,
`asset_dir_path`/`output_dir_path` the path strings and `writable` whether
the final `fs::write` succeeds.  The result is `none` when the source
panics (`read_dir(...).expect(...)` during the hash fallback, or
`fs::write(...).unwrap()`), and otherwise the per-device `Result`: the
output path together with the bytes written to it. -/
def encode (width height : Nat) (background_bytes mask_bytes : List Nat)
    (pixels_to_mask_id : List (Option Nat)) (platform : PlatformSpecification)
    (h : List Nat → String) (dir : AssetDir) (asset_dir_path output_dir_path : String)
    (writable : Bool) (sha : String) : Option (Except String (String × List Nat)) :=
  match build_config platform sha with
  | Except.error msg => some (Except.error msg)
  | Except.ok config =>
    match build_mask_map width height pixels_to_mask_id with
    | Except.error msg => some (Except.error msg)
    | Except.ok mask_block =>
      match resolve_rom h dir asset_dir_path platform with
      | none => none
      | some (Except.error msg) => some (Except.error msg)
      | some (Except.ok rom_data) =>
        if writable then
          some (Except.ok
            (output_dir_path ++ "/" ++ derive_game_name platform.metadata.name ++ ".gnw",
              config ++ image_block background_bytes mask_bytes ++ mask_block ++ rom_data))
        else none

theorem build_config_stamp (platform : PlatformSpecification) (sha : String) (cfg : List Nat)
    (h : build_config platform sha = Except.ok cfg) :
    ∃ hdr, cfg = hdr ++ stamp_bytes sha := by
  rw [build_config] at h
  cases hcl : classify_ports platform.port_map.ports init_port_state with
  | error msg =>
    simp only [hcl] at h
    exact absurd h (by simp)
  | ok st =>
    simp only [hcl] at h
    injection h with h
    exact ⟨_, h.symm⟩

/-- C7 (amended): every successfully assembled image is, in order, the
header block, the interleaved pixel block, the mask RLE stream and the raw
ROM bytes — and the 7-byte build revision stamp is the final segment of the
header block (between the reserved region and the pixel block), not between
the mask stream and the ROM bytes. -/
theorem encode_layout (width height : Nat) (bg mkb : List Nat)
    (pixels : List (Option Nat)) (platform : PlatformSpecification)
    (h : List Nat → String) (dir : AssetDir) (ap op sha : String)
    (cfg mask rom : List Nat)
    (hcfg : build_config platform sha = Except.ok cfg)
    (hmask : build_mask_map width height pixels = Except.ok mask)
    (hrom : resolve_rom h dir ap platform = some (Except.ok rom)) :
    encode width height bg mkb pixels platform h dir ap op true sha =
      some (Except.ok (op ++ "/" ++ derive_game_name platform.metadata.name ++ ".gnw",
        cfg ++ image_block bg mkb ++ mask ++ rom)) ∧
    ∃ hdr, cfg = hdr ++ stamp_bytes sha := by
  refine ⟨?_, build_config_stamp platform sha cfg hcfg⟩
  rw [encode]
  simp only [hcfg, hmask, hrom]
  rfl

/-- Extracts the payload of a successful header or mask build (used by
witnesses, where hypotheses must be stated at concrete inputs). -/
def okD (e : Except String (List Nat)) : List Nat :=
  match e with
  | Except.ok a => a
  | Except.error _ => []

/-- Extracts the payload of a successful ROM resolution (used by
witnesses). -/
def romD (o : Option (Except String (List Nat))) : List Nat :=
  match o with
  | some (Except.ok a) => a
  | _ => []

/-- A concrete asset directory holding the example ROM under its expected
name. -/
def ballDir : AssetDir := ⟨true, [⟨"gnw_ball", true, [9, 9, 9]⟩]⟩

/-- C7 witness: the layout theorem applied to a concrete 1×1 device. -/
theorem encode_layout_witness :
    (build_config ballPlatform "abcdefg" =
        Except.ok (okD (build_config ballPlatform "abcdefg")) ∧
      build_mask_map 1 1 [none] = Except.ok (okD (build_mask_map 1 1 [none])) ∧
      resolve_rom (fun _ => "x") ballDir "assets" ballPlatform =
        some (Except.ok (romD (resolve_rom (fun _ => "x") ballDir "assets" ballPlatform)))) ∧
    (encode 1 1 [1, 2, 3, 4] [5, 6, 7, 8] [none] ballPlatform (fun _ => "x") ballDir
        "assets" "out" true "abcdefg" =
      some (Except.ok ("out" ++ "/" ++ derive_game_name ballPlatform.metadata.name ++ ".gnw",
        okD (build_config ballPlatform "abcdefg") ++ image_block [1, 2, 3, 4] [5, 6, 7, 8] ++
        okD (build_mask_map 1 1 [none]) ++
        romD (resolve_rom (fun _ => "x") ballDir "assets" ballPlatform))) ∧
    ∃ hdr, okD (build_config ballPlatform "abcdefg") = hdr ++ stamp_bytes "abcdefg") :=
  ⟨⟨by rfl, by rfl, by rfl⟩,
    encode_layout 1 1 [1, 2, 3, 4] [5, 6, 7, 8] [none] ballPlatform (fun _ => "x") ballDir
      "assets" "out" "abcdefg" _ _ _ (by rfl) (by rfl) (by rfl)⟩

/-- The bytes a concrete successful encode writes (the C7 counterexample
evaluates them). -/
def ballBytes : List Nat :=
  match encode 1 1 [1, 2, 3, 4] [5, 6, 7, 8] [none] ballPlatform (fun _ => "x") ballDir
      "assets" "out" true "abcdefg" with
  | some (Except.ok pb) => pb.2
  | _ => []

set_option maxRecDepth 100000 in
/-- C7 counterexample: were the stamp located between the end of the mask
stream and the start of the ROM bytes, the last 10 bytes of this concrete
525-byte output (256-byte header, 6-byte pixel block, 260-byte mask stream,
3-byte ROM) would be the stamp "abcdefg" followed by the ROM.  They are
not: the ROM directly follows the mask stream, and the stamp occupies bytes
249..256, the end of the header. -/
theorem encode_layout_counterexample :
    ballBytes.length = 256 + 6 + 260 + 3 ∧
    ballBytes.drop (256 + 6 + 260) = [9, 9, 9] ∧
    ballBytes.drop (ballBytes.length - 10) ≠ stamp_bytes "abcdefg" ++ [9, 9, 9] ∧
    (ballBytes.take 256).drop 249 = stamp_bytes "abcdefg" := by decide

theorem read_file_eq_none (dir : AssetDir) (name : String)
    (hnm : ∀ e ∈ dir.entries, e.name ≠ name) : read_file dir name = none := by
  have hfind : dir.entries.find? (fun e => e.name == name) = none :=
    List.find?_eq_none.mpr (fun e he => by simp [hnm e he])
  cases ho : dir.openable with
  | false => simp [read_file, ho]
  | true => simp [read_file, ho, hfind]

theorem find_rom_scan_first (h : List Nat → String) (t : String) (e : DirEntry)
    (post : List DirEntry) (he : e.readable = true) (hh : h e.contents = t) :
    ∀ pre : List DirEntry, (∀ e' ∈ pre, e'.readable = true → h e'.contents ≠ t) →
      find_rom_scan h t (pre ++ e :: post) = Except.ok e.contents := by
  intro pre
  induction pre with
  | nil =>
    intro _
    rw [List.nil_append]
    simp [find_rom_scan, he, hh]
  | cons e' pre ih =>
    intro hpre
    rw [List.cons_append]
    cases hre : e'.readable with
    | true =>
      have hne : h e'.contents ≠ t := hpre e' (List.mem_cons_self _ _) hre
      simp only [find_rom_scan, hre, if_neg hne, if_true]
      exact ih (fun x hx => hpre x (List.mem_cons_of_mem _ hx))
    | false =>
      simp only [find_rom_scan, hre]
      simp only [Bool.false_eq_true, if_false]
      exact ih (fun x hx => hpre x (List.mem_cons_of_mem _ hx))

theorem find_rom_scan_none (h : List Nat → String) (t : String) :
    ∀ entries : List DirEntry, (∀ e ∈ entries, e.readable = true → h e.contents ≠ t) →
      find_rom_scan h t entries = Except.error "No SHA matched ROM found" := by
  intro entries
  induction entries with
  | nil => intro _; rfl
  | cons e es ih =>
    intro hand
    cases hre : e.readable with
    | true =>
      have hne : h e.contents ≠ t := hand e (List.mem_cons_self _ _) hre
      simp only [find_rom_scan, hre, if_neg hne, if_true]
      exact ih (fun x hx hrx => hand x (List.mem_cons_of_mem _ hx) hrx)
    | false =>
      simp only [find_rom_scan, hre]
      simp only [Bool.false_eq_true, if_false]
      exact ih (fun x hx hrx => hand x (List.mem_cons_of_mem _ hx) hrx)

/-- C8: with the expected ROM filename absent from the asset directory,
resolution falls back to the SHA scan: when some readable file's digest
equals `rom_hash` (digests compared as exact strings, hence
case-sensitively), encoding succeeds and the output ends with the exact
bytes of the first such file in listing order; when no file matches by path
or by hash, encoding fails with an error whose message contains the
originally attempted path. -/
theorem rom_hash_fallback (width height : Nat) (bg mkb : List Nat)
    (pixels : List (Option Nat)) (platform : PlatformSpecification)
    (h : List Nat → String) (ap op sha : String) (cfg mask : List Nat)
    (hcfg : build_config platform sha = Except.ok cfg)
    (hmask : build_mask_map width height pixels = Except.ok mask) :
    (∀ (pre post : List DirEntry) (e : DirEntry),
      (∀ e' ∈ pre ++ e :: post, e'.name ≠ platform.rom.rom) →
      (∀ e' ∈ pre, e'.readable = true → h e'.contents ≠ platform.rom.rom_hash) →
      e.readable = true → h e.contents = platform.rom.rom_hash →
      encode width height bg mkb pixels platform h ⟨true, pre ++ e :: post⟩ ap op true sha =
        some (Except.ok
          (op ++ "/" ++ derive_game_name platform.metadata.name ++ ".gnw",
            cfg ++ image_block bg mkb ++ mask ++ e.contents))) ∧
    (∀ entries : List DirEntry,
      (∀ e' ∈ entries, e'.name ≠ platform.rom.rom) →
      (∀ e' ∈ entries, e'.readable = true → h e'.contents ≠ platform.rom.rom_hash) →
      ∃ a b : String,
        encode width height bg mkb pixels platform h ⟨true, entries⟩ ap op true sha =
          some (Except.error (a ++ (ap ++ "/" ++ platform.rom.rom) ++ b))) := by
  constructor
  · intro pre post e hnm hpre hre hhe
    have hrf : read_file ⟨true, pre ++ e :: post⟩ platform.rom.rom = none :=
      read_file_eq_none _ _ hnm
    have hsc := find_rom_scan_first h platform.rom.rom_hash e post hre hhe pre hpre
    rw [encode]
    simp only [hcfg, hmask, resolve_rom, hrf, find_rom_by_hash, hsc]
    rfl
  · intro entries hnm hnh
    refine ⟨"No SHA matched ROM found" ++ "\nCould not open ROM \"", "\"", ?_⟩
    have hrf : read_file ⟨true, entries⟩ platform.rom.rom = none :=
      read_file_eq_none _ _ hnm
    have hsc := find_rom_scan_none h platform.rom.rom_hash entries hnh
    rw [encode]
    simp only [hcfg, hmask, resolve_rom, hrf, find_rom_by_hash, hsc]
    rfl

/-- The digest function used by witnesses: maps the contents `[7, 7]` to the
expected hash and everything else elsewhere. -/
def hashFn : List Nat → String := fun c => if c = [7, 7] then "hash_ball" else "nope"

/-- C8 witness: both fallback behaviours evaluated on concrete directories
(one whose second entry hash-matches, one with no match at all). -/
theorem rom_hash_fallback_witness :
    (build_config ballPlatform "abcdefg" =
        Except.ok (okD (build_config ballPlatform "abcdefg")) ∧
      build_mask_map 1 1 [none] = Except.ok (okD (build_mask_map 1 1 [none]))) ∧
    encode 1 1 [1, 2, 3, 4] [5, 6, 7, 8] [none] ballPlatform hashFn
        ⟨true, [⟨"other1", false, [1]⟩] ++ ⟨"other2", true, [7, 7]⟩ :: []⟩
        "assets" "out" true "abcdefg" =
      some (Except.ok ("out" ++ "/" ++ derive_game_name ballPlatform.metadata.name ++ ".gnw",
        okD (build_config ballPlatform "abcdefg") ++ image_block [1, 2, 3, 4] [5, 6, 7, 8] ++
        okD (build_mask_map 1 1 [none]) ++ [7, 7])) ∧
    (∃ a b : String,
      encode 1 1 [1, 2, 3, 4] [5, 6, 7, 8] [none] ballPlatform hashFn
          ⟨true, [⟨"other1", true, [1]⟩]⟩ "assets" "out" true "abcdefg" =
        some (Except.error (a ++ ("assets" ++ "/" ++ ballPlatform.rom.rom) ++ b))) :=
  ⟨⟨by rfl, by rfl⟩,
    (rom_hash_fallback 1 1 [1, 2, 3, 4] [5, 6, 7, 8] [none] ballPlatform hashFn
        "assets" "out" "abcdefg" _ _ (by rfl) (by rfl)).1
      [⟨"other1", false, [1]⟩] [] ⟨"other2", true, [7, 7]⟩
      (by decide) (by decide) (by decide) (by decide),
    (rom_hash_fallback 1 1 [1, 2, 3, 4] [5, 6, 7, 8] [none] ballPlatform hashFn
        "assets" "out" "abcdefg" _ _ (by rfl) (by rfl)).2
      [⟨"other1", true, [1]⟩] (by decide) (by decide)⟩

/-- C9: at the claim's two named failure points the code panics (modelled as
`none`) instead of returning a per-device error result: an unopenable asset
directory during the ROM-by-hash fallback hits
`read_dir(...).expect("Could not open temp directory")`, and a failing
final output write hits `fs::write(...).unwrap()`.  Both abort the whole
process — and with it the batch — rather than failing only the device. -/
theorem encode_panics :
    encode 1 1 [1, 2, 3, 4] [5, 6, 7, 8] [none] ballPlatform hashFn
        ⟨false, []⟩ "assets" "out" true "abcdefg" = none ∧
    encode 1 1 [1, 2, 3, 4] [5, 6, 7, 8] [none] ballPlatform hashFn
        ballDir "assets" "out" false "abcdefg" = none :=
  ⟨by rfl, by rfl⟩

/-- Modelled from the spec: "the name (case-insensitively) begins with the
literal prefix": a character-wise comparison case-folding both sides. -/
def ci_starts_with : List Char → List Char → Bool
  | _, [] => true
  | [], _ :: _ => false
  | c :: cs, p :: ps => c.toLower == p.toLower && ci_starts_with cs ps

/-- Modelled from the spec (§4.5): strip the prefix "Game & Watch:" when the
name begins with it case-insensitively, replace every remaining colon with
" -", trim surrounding whitespace. -/
def spec_game_name (name : String) : String :=
  let chars := name.toList
  let chars :=
    if ci_starts_with chars "Game & Watch:".toList then
      chars.drop "Game & Watch:".toList.length
    else chars
  String.mk (trim_chars (replace_colon chars))

theorem starts_with_map_toLower :
    ∀ cs ps : List Char,
      starts_with_chars (cs.map Char.toLower) (ps.map Char.toLower) = ci_starts_with cs ps := by
  intro cs
  induction cs with
  | nil => intro ps; cases ps <;> rfl
  | cons c cs ih =>
    intro ps
    cases ps with
    | nil => rfl
    | cons p ps => simp only [List.map_cons, starts_with_chars, ci_starts_with, ih]

/-- C10: the derived output filename is obtained by stripping the prefix
"Game & Watch:" when the name begins with it case-insensitively, replacing
every remaining colon with " -", trimming surrounding whitespace and
appending ".gnw"; in particular "Game & Watch: Ball" yields "Ball.gnw". -/
theorem output_filename (name : String) :
    derive_game_name name = spec_game_name name ∧
    derive_game_name "Game & Watch: Ball" ++ ".gnw" = "Ball.gnw" := by
  constructor
  · simp only [derive_game_name, spec_game_name]
    have h1 : ("game & watch:".toList : List Char) =
        "Game & Watch:".toList.map Char.toLower := by decide
    rw [h1, starts_with_map_toLower]
  · decide

/-- C10 witness: the filename derivation evaluated on a name with a colon
and mixed-case prefix. -/
theorem output_filename_witness :
    derive_game_name "game & WATCH: Mario: Bros." = spec_game_name "game & WATCH: Mario: Bros." ∧
    derive_game_name "Game & Watch: Ball" ++ ".gnw" = "Ball.gnw" :=
  output_filename "game & WATCH: Mario: Bros."

end GnW
